import Mathlib

/-
Verification of the retrieval-augmented chat orchestration core of the
azure-ai-search-litigator repository, together with the pieces of the
repository that are present in source form (the OpenAPI declaration of the
citation-document endpoint and the GPTBuilder React component).

The orchestration core (Index Registry, Citation Resolver, Grounding
Retriever, Context Assembler, Chat Orchestrator) is not present under the
repository sources; only its request-facing contract and callers are
visible.  Those components are therefore modelled from the specification
text, faithfully to its words, and the properties are settled against that
model.  The OpenAPI declaration and the GPTBuilder component are embedded
directly from the source files.
-/

/-- Modelled from the spec: the error taxonomy of section 7 of the design
(the backend code carrying these error kinds is not in the repository
sources). -/
inductive ErrorKind where
  | InvalidArgument : ErrorKind
  | NotFound : ErrorKind
  | QueryError : ErrorKind
  | BackendUnavailable : ErrorKind
  | BackendError : ErrorKind
deriving DecidableEq, Repr

/-- Modelled from the spec: content of a grounding item, either a text
passage or an image reference (section 3, GroundingItem.content). -/
inductive GroundingContent where
  | text : String → GroundingContent
  | imageReference : String → GroundingContent
deriving DecidableEq, Repr

/-- Modelled from the spec: the GroundingItem value object of section 3.
The producing Grounding Retriever is not in the repository sources. -/
structure GroundingItem where
  id : String
  sourceDocument : String
  content : GroundingContent
  score : Int
  rank : Nat
deriving DecidableEq, Repr

/-- Modelled from the spec: the ContextBundle value object of section 3.
The producing Context Assembler is not in the repository sources. -/
structure ContextBundle where
  items : List GroundingItem
  totalSizeEstimate : Nat
  truncated : Bool
deriving DecidableEq, Repr

/-- Size estimate of a content value: the length of the carried text or of
the image reference. -/
def contentSize : GroundingContent → Nat
  | GroundingContent.text s => s.length
  | GroundingContent.imageReference r => r.length

/-- Size estimate of a grounding item, used by the Context Assembler's
running size accumulation. -/
def itemSize (i : GroundingItem) : Nat := contentSize i.content

/-- Sum of the size estimates of a list of grounding items. -/
def sumSize : List GroundingItem → Nat
  | [] => 0
  | i :: rest => itemSize i + sumSize rest

/-- Modelled from the spec: the greedy selection loop of the Context
Assembler (section 4.4), which is not in the repository sources.  Walking
the items in rank order it accumulates an item when the running size
estimate stays within the budget; the first item that would exceed the
budget is dropped and selection stops there, setting the truncated flag.
Returns the selected items, the final running size estimate and the
truncated flag. -/
def assembleGo (budget : Nat) (acc : Nat) : List GroundingItem → List GroundingItem × Nat × Bool
  | [] => ([], acc, false)
  | i :: rest =>
      if acc + itemSize i ≤ budget then
        let r := assembleGo budget (acc + itemSize i) rest
        (i :: r.1, r.2.1, r.2.2)
      else ([], acc, true)

/-- Modelled from the spec: the Context Assembler operation
`assemble(items, budget) → ContextBundle` of section 4.4, which is not in
the repository sources. -/
def assemble (items : List GroundingItem) (budget : Nat) : ContextBundle :=
  let r := assembleGo budget 0 items
  { items := r.1, totalSizeEstimate := r.2.1, truncated := r.2.2 }

theorem assembleGo_spec (budget : Nat) :
    ∀ (items : List GroundingItem) (acc : Nat), acc ≤ budget →
      (assembleGo budget acc items).1 = items.take (assembleGo budget acc items).1.length ∧
      (assembleGo budget acc items).2.1 = acc + sumSize (assembleGo budget acc items).1 ∧
      (assembleGo budget acc items).2.1 ≤ budget ∧
      ((assembleGo budget acc items).2.2 = true ↔
        (assembleGo budget acc items).1.length < items.length) ∧
      ((assembleGo budget acc items).1.length < items.length →
        budget < acc + sumSize (items.take ((assembleGo budget acc items).1.length + 1))) := by
  intro items
  induction items with
  | nil =>
      intro acc hacc
      simp [assembleGo, sumSize, hacc]
  | cons i rest ih =>
      intro acc hacc
      by_cases h : acc + itemSize i ≤ budget
      · have hrec := ih (acc + itemSize i) h
        simp only [assembleGo, if_pos h, List.length_cons, List.take_succ_cons, sumSize]
        refine ⟨?_, ?_, ?_, ?_, ?_⟩
        · rw [← hrec.1]
        · rw [hrec.2.1]; omega
        · exact hrec.2.2.1
        · constructor
          · intro ht
            have := hrec.2.2.2.1.mp ht
            omega
          · intro hl
            exact hrec.2.2.2.1.mpr (by omega)
        · intro hl
          have hl2 : (assembleGo budget (acc + itemSize i) rest).1.length < rest.length := by
            omega
          have := hrec.2.2.2.2 hl2
          omega
      · have e : assembleGo budget acc (i :: rest) = ([], acc, true) := by
          simp [assembleGo, h]
        rw [e]
        refine ⟨rfl, by simp [sumSize], hacc, ?_, ?_⟩
        · exact ⟨fun _ => by simp, fun _ => rfl⟩
        · intro _
          simp only [List.length_nil, List.take_succ_cons, List.take_zero, sumSize]
          omega

/-- C3: For every ordered sequence of GroundingItem items and every budget,
the ContextBundle returned by assemble satisfies totalSizeEstimate ≤ budget,
and its truncated flag is true if and only if at least one input item was
excluded from the bundle. -/
theorem assemble_budget_and_truncated (items : List GroundingItem) (budget : Nat) :
    (assemble items budget).totalSizeEstimate ≤ budget ∧
    ((assemble items budget).truncated = true ↔
      (assemble items budget).items.length < items.length) := by
  have h := assembleGo_spec budget items 0 (Nat.zero_le budget)
  exact ⟨h.2.2.1, h.2.2.2.1⟩

/-- C4: assemble selects items greedily in rank order: the bundle's items
are an initial segment of the input (each item included whole, never
reordered), the running size stays within budget, the first item that would
exceed the budget is dropped and selection stops there, and an empty input
yields an empty, non-truncated bundle.  Determinism is inherent to the
functional model. -/
theorem assemble_greedy_order (items : List GroundingItem) (budget : Nat) :
    (∃ n, (assemble items budget).items = items.take n ∧
      sumSize (items.take n) ≤ budget ∧
      (n < items.length → budget < sumSize (items.take (n + 1))) ∧
      (assemble items budget).totalSizeEstimate = sumSize (items.take n)) ∧
    (assemble ([] : List GroundingItem) budget).items = [] ∧
    (assemble ([] : List GroundingItem) budget).truncated = false ∧
    (assemble ([] : List GroundingItem) budget).totalSizeEstimate = 0 := by
  have h := assembleGo_spec budget items 0 (Nat.zero_le budget)
  constructor
  · refine ⟨(assembleGo budget 0 items).1.length, ?_, ?_, ?_, ?_⟩
    · exact h.1
    · rw [← h.1]
      have := h.2.1
      have := h.2.2.1
      omega
    · intro hl
      have := h.2.2.2.2 hl
      omega
    · simp only [assemble]
      rw [h.2.1, ← h.1]
      omega
  · exact ⟨rfl, rfl, rfl⟩

/-- Witness for C4 at a concrete input: two items of sizes 3 and 4 with a
budget of 5 keep only the first item. -/
theorem assemble_greedy_order_witness :
    (∃ n, (assemble [⟨"1", "a.pdf", GroundingContent.text "xxx", 9, 1⟩,
        ⟨"2", "b.pdf", GroundingContent.text "yyyy", 7, 2⟩] 5).items =
        ([⟨"1", "a.pdf", GroundingContent.text "xxx", 9, 1⟩,
          ⟨"2", "b.pdf", GroundingContent.text "yyyy", 7, 2⟩] :
            List GroundingItem).take n ∧
      sumSize (([⟨"1", "a.pdf", GroundingContent.text "xxx", 9, 1⟩,
          ⟨"2", "b.pdf", GroundingContent.text "yyyy", 7, 2⟩] :
            List GroundingItem).take n) ≤ 5 ∧
      (n < ([⟨"1", "a.pdf", GroundingContent.text "xxx", 9, 1⟩,
          ⟨"2", "b.pdf", GroundingContent.text "yyyy", 7, 2⟩] :
            List GroundingItem).length →
        5 < sumSize (([⟨"1", "a.pdf", GroundingContent.text "xxx", 9, 1⟩,
          ⟨"2", "b.pdf", GroundingContent.text "yyyy", 7, 2⟩] :
            List GroundingItem).take (n + 1))) ∧
      (assemble [⟨"1", "a.pdf", GroundingContent.text "xxx", 9, 1⟩,
        ⟨"2", "b.pdf", GroundingContent.text "yyyy", 7, 2⟩] 5).totalSizeEstimate =
        sumSize (([⟨"1", "a.pdf", GroundingContent.text "xxx", 9, 1⟩,
          ⟨"2", "b.pdf", GroundingContent.text "yyyy", 7, 2⟩] :
            List GroundingItem).take n)) ∧
    (assemble ([] : List GroundingItem) 5).items = [] ∧
    (assemble ([] : List GroundingItem) 5).truncated = false ∧
    (assemble ([] : List GroundingItem) 5).totalSizeEstimate = 0 :=
  assemble_greedy_order
    [⟨"1", "a.pdf", GroundingContent.text "xxx", 9, 1⟩,
     ⟨"2", "b.pdf", GroundingContent.text "yyyy", 7, 2⟩] 5

/-- Modelled from the spec: the SignedDownloadLink value object of section
3, minted by the Citation Resolver, which is not in the repository
sources. -/
structure SignedDownloadLink where
  url : String
  expiresAt : Nat
  readOnly : Bool
deriving DecidableEq, Repr

/-- Modelled from the spec: the Citation Resolver configuration, carrying
the configured validity window and the configured maximum validity window
of section 4.2 (design default 5 to 15 minutes). -/
structure ResolverConfig where
  validityWindow : Nat
  maxValidityWindow : Nat
deriving DecidableEq, Repr

/-- Splits a character list into the segments separated by the slash
character, accumulating the current segment in reverse. -/
def segmentsAux : List Char → List Char → List (List Char)
  | [], cur => [cur.reverse]
  | c :: rest, cur =>
      if c = '/' then cur.reverse :: segmentsAux rest [] else segmentsAux rest (c :: cur)

/-- Whether a file name contains a dot-dot path segment. -/
def hasDotDotSegment (fileName : String) : Bool :=
  (segmentsAux fileName.toList []).any (fun seg => seg == ['.', '.'])

/-- Whether a file name begins with an absolute-path marker. -/
def isAbsolutePath (fileName : String) : Bool :=
  match fileName.toList with
  | [] => false
  | c :: _ => c == '/'

/-- Whether a file name passes the Citation Resolver input constraint:
non-empty, no dot-dot path segment, no absolute-path start. -/
def validFileName (fileName : String) : Bool :=
  !(fileName == "") && !(hasDotDotSegment fileName) && !(isAbsolutePath fileName)

/-- Modelled from the spec: the Citation Resolver operation
`resolve(fileName) → SignedDownloadLink` of section 4.2, which is not in
the repository sources.  Rejects empty, traversal-encoding or absolute
file names with InvalidArgument, fails with NotFound when the document is
absent from the grounding-corpus storage namespace, and otherwise mints a
read-only link expiring after the configured validity window. -/
def resolve (cfg : ResolverConfig) (storage : List String) (now : Nat) (fileName : String) :
    Except ErrorKind SignedDownloadLink :=
  if !(validFileName fileName) then Except.error ErrorKind.InvalidArgument
  else if !(storage.contains fileName) then Except.error ErrorKind.NotFound
  else Except.ok
    { url := "https://storage.example/" ++ fileName,
      expiresAt := now + cfg.validityWindow,
      readOnly := true }

/-- C1: resolve fails with InvalidArgument on an empty file name, on a
dot-dot path segment and on an absolute-path start; and every successful
call returns a read-only link whose expiresAt is strictly after the
issuance time and strictly bounded by the configured maximum validity
window. -/
theorem resolve_validation_and_expiry (cfg : ResolverConfig) (storage : List String)
    (now : Nat) (fileName : String)
    (hpos : 0 < cfg.validityWindow) (hmax : cfg.validityWindow < cfg.maxValidityWindow) :
    ((fileName = "" ∨ hasDotDotSegment fileName = true ∨ isAbsolutePath fileName = true) →
      resolve cfg storage now fileName = Except.error ErrorKind.InvalidArgument) ∧
    (∀ link, resolve cfg storage now fileName = Except.ok link →
      now < link.expiresAt ∧ link.expiresAt < now + cfg.maxValidityWindow ∧
      link.readOnly = true) := by
  constructor
  · intro hbad
    have hv : validFileName fileName = false := by
      rcases hbad with he | hdd | habs
      · subst he; rfl
      · simp [validFileName, hdd]
      · simp [validFileName, habs]
    simp [resolve, hv]
  · intro link hok
    by_cases hv : validFileName fileName
    · by_cases hc : fileName ∈ storage
      · have e : resolve cfg storage now fileName =
            Except.ok ⟨"https://storage.example/" ++ fileName, now + cfg.validityWindow, true⟩ := by
          simp [resolve, hv, hc]
        rw [e] at hok
        injection hok with h2
        subst h2
        refine ⟨?_, ?_, rfl⟩
        · show now < now + cfg.validityWindow
          omega
        · show now + cfg.validityWindow < now + cfg.maxValidityWindow
          omega
      · simp [resolve, hv, hc] at hok
    · simp [resolve, hv] at hok

/-- Witness for C1 at concrete inputs: a traversal name and an absolute
name are rejected with InvalidArgument, and a successful resolution of an
existing document yields a link expiring strictly between issuance and the
configured maximum window. -/
theorem resolve_validation_and_expiry_witness :
    resolve ⟨300, 900⟩ ["report.pdf"] 100 "../secret" =
      Except.error ErrorKind.InvalidArgument ∧
    resolve ⟨300, 900⟩ ["report.pdf"] 100 "/etc/passwd" =
      Except.error ErrorKind.InvalidArgument ∧
    (100 < (400 : Nat) ∧ (400 : Nat) < 100 + 900 ∧ true = true) :=
  ⟨(resolve_validation_and_expiry ⟨300, 900⟩ ["report.pdf"] 100 "../secret"
      (by decide) (by decide)).1 (Or.inr (Or.inl (by decide))),
   (resolve_validation_and_expiry ⟨300, 900⟩ ["report.pdf"] 100 "/etc/passwd"
      (by decide) (by decide)).1 (Or.inr (Or.inr (by decide))),
   (resolve_validation_and_expiry ⟨300, 900⟩ ["report.pdf"] 100 "report.pdf"
      (by decide) (by decide)).2
     ⟨"https://storage.example/report.pdf", 400, true⟩ rfl⟩

/-- Decimal digit character for a digit value below ten. -/
def digitChar (d : Nat) : Char := Char.ofNat (48 + d)

/-- Fuel-bounded most-significant-first decimal digit list of a natural
number; the fuel bounds the recursion depth. -/
def natDigitsAux : Nat → Nat → List Nat
  | 0, _ => []
  | fuel + 1, n => if n < 10 then [n] else natDigitsAux fuel (n / 10) ++ [n % 10]

/-- Most-significant-first decimal digit list of a natural number. -/
def natDigits (n : Nat) : List Nat := natDigitsAux (n + 1) n

/-- Value of a most-significant-first decimal digit list. -/
def digitsVal (ds : List Nat) : Nat := ds.foldl (fun a d => a * 10 + d) 0

theorem natDigitsAux_congr :
    ∀ f₁ n, n < f₁ → ∀ f₂, n < f₂ → natDigitsAux f₁ n = natDigitsAux f₂ n := by
  intro f₁
  induction f₁ with
  | zero => intro n h; omega
  | succ f ih =>
      intro n h f₂ h₂
      cases f₂ with
      | zero => omega
      | succ f₂' =>
          by_cases h10 : n < 10
          · simp [natDigitsAux, h10]
          · have hdiv : n / 10 < n := Nat.div_lt_self (by omega) (by omega)
            simp only [natDigitsAux, if_neg h10]
            rw [ih (n / 10) (by omega) f₂' (by omega)]

theorem natDigits_lt_ten_step (n : Nat) (h : ¬ n < 10) :
    natDigits n = natDigits (n / 10) ++ [n % 10] := by
  have hdiv : n / 10 < n := Nat.div_lt_self (by omega) (by omega)
  have e1 : natDigits n = natDigitsAux n (n / 10) ++ [n % 10] := by
    show (if n < 10 then [n] else natDigitsAux n (n / 10) ++ [n % 10]) = _
    rw [if_neg h]
  rw [e1, natDigitsAux_congr n (n / 10) (by omega) (n / 10 + 1) (by omega)]
  rfl

theorem natDigits_small (n : Nat) (h : n < 10) : natDigits n = [n] := by
  simp [natDigits, natDigitsAux, h]

theorem digitsVal_append_digit (l : List Nat) (d : Nat) :
    digitsVal (l ++ [d]) = digitsVal l * 10 + d := by
  simp [digitsVal, List.foldl_append]

theorem digitsVal_natDigits (n : Nat) : digitsVal (natDigits n) = n := by
  induction n using Nat.strong_induction_on with
  | _ n ih =>
      by_cases h : n < 10
      · rw [natDigits_small n h]
        simp [digitsVal]
      · have hdiv : n / 10 < n := Nat.div_lt_self (by omega) (by omega)
        rw [natDigits_lt_ten_step n h, digitsVal_append_digit, ih (n / 10) hdiv]
        omega

theorem natDigits_inj (a b : Nat) (h : natDigits a = natDigits b) : a = b := by
  have ha := digitsVal_natDigits a
  rw [h, digitsVal_natDigits] at ha
  omega

theorem natDigits_bounded (n : Nat) : ∀ d ∈ natDigits n, d < 10 := by
  induction n using Nat.strong_induction_on with
  | _ n ih =>
      intro d hd
      by_cases h : n < 10
      · rw [natDigits_small n h] at hd
        simp at hd
        omega
      · have hdiv : n / 10 < n := Nat.div_lt_self (by omega) (by omega)
        rw [natDigits_lt_ten_step n h] at hd
        rcases List.mem_append.mp hd with hm | hm
        · exact ih (n / 10) hdiv d hm
        · simp at hm
          subst hm
          exact Nat.mod_lt _ (by omega)

theorem digitChar_inj_below_ten :
    ∀ a, a < 10 → ∀ b, b < 10 → digitChar a = digitChar b → a = b := by decide

theorem map_digitChar_inj :
    ∀ xs ys : List Nat, (∀ x ∈ xs, x < 10) → (∀ y ∈ ys, y < 10) →
      xs.map digitChar = ys.map digitChar → xs = ys := by
  intro xs
  induction xs with
  | nil =>
      intro ys _ _ h
      cases ys with
      | nil => rfl
      | cons y ys' => simp at h
  | cons x xs' ih =>
      intro ys hx hy h
      cases ys with
      | nil => simp at h
      | cons y ys' =>
          simp only [List.map_cons, List.cons.injEq] at h
          have hxy : x = y :=
            digitChar_inj_below_ten x (hx x (by simp)) y (hy y (by simp)) h.1
          have : xs' = ys' := by
            refine ih ys' (fun a ha => hx a (by simp [ha])) (fun a ha => hy a (by simp [ha])) h.2
          rw [hxy, this]

/-- Modelled from the spec: the stable per-item identifier the Grounding
Retriever assigns to the item at zero-based output position n (section
4.3; the retriever code is not in the repository sources, and the exact
identifier convention is an implementation choice). -/
def itemId (n : Nat) : String :=
  String.mk ('i' :: 't' :: 'e' :: 'm' :: '-' :: (natDigits (n + 1)).map digitChar)

theorem itemId_inj (m n : Nat) (h : itemId m = itemId n) : m = n := by
  unfold itemId at h
  injection h with hdata
  simp only [List.cons.injEq, true_and] at hdata
  have := map_digitChar_inj (natDigits (m + 1)) (natDigits (n + 1))
    (natDigits_bounded (m + 1)) (natDigits_bounded (n + 1)) hdata
  have := natDigits_inj (m + 1) (n + 1) this
  omega

/-- Modelled from the spec: one ranked result coming back from the search
backend for a query, before the Grounding Retriever maps it to a
GroundingItem (section 4.3; the retriever code is not in the repository
sources).  Scores are modelled as integers to keep the ordering exact. -/
structure SearchResult where
  sourceDocument : String
  content : GroundingContent
  score : Int
deriving DecidableEq, Repr

/-- Inserts a result into a descending-by-score list, placing it before
the first element whose score is not larger, so that earlier input wins
on ties. -/
def insertDesc (x : SearchResult) : List SearchResult → List SearchResult
  | [] => [x]
  | y :: ys => if x.score < y.score then y :: insertDesc x ys else x :: y :: ys

/-- Stable sort by descending score. -/
def sortDesc : List SearchResult → List SearchResult
  | [] => []
  | x :: xs => insertDesc x (sortDesc xs)

/-- Modelled from the spec: the Grounding Retriever's mapping of sorted
backend results to GroundingItem values, assigning rank n+1 and the
stable identifier to the item at zero-based position n (section 4.3). -/
def assignRanks : Nat → List SearchResult → List GroundingItem
  | _, [] => []
  | n, r :: rs =>
      { id := itemId n, sourceDocument := r.sourceDocument, content := r.content,
        score := r.score, rank := n + 1 } :: assignRanks (n + 1) rs

/-- Modelled from the spec: the Grounding Retriever operation of section
4.3 restricted to its ranking step, which is not in the repository
sources: results are ordered by descending score with ties broken by
stable first-seen input order, cut to topK, and mapped to GroundingItem
values with strictly increasing ranks and per-batch-unique identifiers. -/
def retrieve (results : List SearchResult) (topK : Nat) : List GroundingItem :=
  assignRanks 0 ((sortDesc results).take topK)

/-- Forgets rank and identifier, recovering the backend result carried by
a grounding item. -/
def payload (i : GroundingItem) : SearchResult :=
  { sourceDocument := i.sourceDocument, content := i.content, score := i.score }

theorem mem_insertDesc (x z : SearchResult) :
    ∀ l, z ∈ insertDesc x l ↔ z = x ∨ z ∈ l := by
  intro l
  induction l with
  | nil => simp [insertDesc]
  | cons y ys ih =>
      by_cases h : x.score < y.score
      · simp only [insertDesc, if_pos h, List.mem_cons, ih]
        tauto
      · simp only [insertDesc, if_neg h, List.mem_cons]

theorem insertDesc_sorted (x : SearchResult) :
    ∀ l, l.Pairwise (fun a b => b.score ≤ a.score) →
      (insertDesc x l).Pairwise (fun a b => b.score ≤ a.score) := by
  intro l
  induction l with
  | nil => intro _; simp [insertDesc]
  | cons y ys ih =>
      intro h
      rw [List.pairwise_cons] at h
      by_cases hs : x.score < y.score
      · simp only [insertDesc, if_pos hs, List.pairwise_cons]
        refine ⟨?_, ih h.2⟩
        intro z hz
        rcases (mem_insertDesc x z ys).mp hz with rfl | hz'
        · omega
        · exact h.1 z hz'
      · have e : insertDesc x (y :: ys) = x :: y :: ys := by
          simp [insertDesc, hs]
        rw [e, List.pairwise_cons]
        refine ⟨?_, List.pairwise_cons.mpr h⟩
        intro z hz
        rcases List.mem_cons.mp hz with rfl | hz'
        · omega
        · have := h.1 z hz'
          omega

theorem sortDesc_sorted : ∀ l : List SearchResult,
    (sortDesc l).Pairwise (fun a b => b.score ≤ a.score) := by
  intro l
  induction l with
  | nil => simp [sortDesc]
  | cons x xs ih => exact insertDesc_sorted x (sortDesc xs) ih

theorem filter_insertDesc (c : Int) (x : SearchResult) :
    ∀ l, (insertDesc x l).filter (fun r => decide (r.score = c)) =
      if x.score = c then x :: l.filter (fun r => decide (r.score = c))
      else l.filter (fun r => decide (r.score = c)) := by
  intro l
  induction l with
  | nil =>
      by_cases hx : x.score = c
      · simp [insertDesc, hx]
      · simp [insertDesc, hx]
  | cons y ys ih =>
      by_cases hs : x.score < y.score
      · by_cases hx : x.score = c
        · have hy : ¬ y.score = c := by omega
          simp only [insertDesc, if_pos hs, List.filter_cons]
          rw [ih]
          simp [hx, hy]
        · simp only [insertDesc, if_pos hs, List.filter_cons]
          rw [ih]
          simp [hx]
      · have e : insertDesc x (y :: ys) = x :: y :: ys := by
          simp [insertDesc, hs]
        rw [e]
        by_cases hx : x.score = c
        · simp [List.filter_cons, hx]
        · simp [List.filter_cons, hx]

theorem sortDesc_filter (c : Int) : ∀ l : List SearchResult,
    (sortDesc l).filter (fun r => decide (r.score = c)) =
      l.filter (fun r => decide (r.score = c)) := by
  intro l
  induction l with
  | nil => rfl
  | cons x xs ih =>
      show (insertDesc x (sortDesc xs)).filter _ = _
      rw [filter_insertDesc c x (sortDesc xs)]
      by_cases hx : x.score = c
      · simp [hx, ih, List.filter_cons]
      · simp [hx, ih, List.filter_cons]

theorem filter_take_eq_take_filter {α : Type} (p : α → Bool) :
    ∀ (l : List α) (k : Nat), ∃ m, (l.take k).filter p = (l.filter p).take m := by
  intro l
  induction l with
  | nil => intro k; exact ⟨0, by simp⟩
  | cons x xs ih =>
      intro k
      cases k with
      | zero => exact ⟨0, by simp⟩
      | succ k =>
          obtain ⟨m, hm⟩ := ih k
          by_cases hp : p x
          · exact ⟨m + 1, by simp [List.take_succ_cons, List.filter_cons, hp, hm]⟩
          · exact ⟨m, by simp [List.take_succ_cons, List.filter_cons, hp, hm]⟩

theorem mem_assignRanks : ∀ (n : Nat) (l : List SearchResult) (x : GroundingItem),
    x ∈ assignRanks n l →
      n + 1 ≤ x.rank ∧ (∃ r ∈ l, x.score = r.score) ∧ ∃ j, n ≤ j ∧ x.id = itemId j := by
  intro n l
  induction l generalizing n with
  | nil => intro x hx; simp [assignRanks] at hx
  | cons r rs ih =>
      intro x hx
      simp only [assignRanks, List.mem_cons] at hx
      rcases hx with rfl | hx
      · exact ⟨Nat.le_refl (n + 1), ⟨r, by simp, rfl⟩, n, Nat.le_refl n, rfl⟩
      · obtain ⟨h1, ⟨r', hr', hs⟩, j, hj, hid⟩ := ih (n + 1) x hx
        exact ⟨by omega, ⟨r', by simp [hr'], hs⟩, j, by omega, hid⟩

theorem assignRanks_pairwise : ∀ (n : Nat) (l : List SearchResult),
    l.Pairwise (fun a b => b.score ≤ a.score) →
    (assignRanks n l).Pairwise (fun a b => a.rank < b.rank ∧ b.score ≤ a.score) := by
  intro n l
  induction l generalizing n with
  | nil => intro _; simp [assignRanks]
  | cons r rs ih =>
      intro h
      rw [List.pairwise_cons] at h
      simp only [assignRanks, List.pairwise_cons]
      refine ⟨?_, ih (n + 1) h.2⟩
      intro z hz
      obtain ⟨h1, ⟨r', hr', hs⟩, _⟩ := mem_assignRanks (n + 1) rs z hz
      constructor
      · show n + 1 < z.rank
        omega
      · show z.score ≤ r.score
        rw [hs]
        exact h.1 r' hr'

theorem assignRanks_ids_nodup : ∀ (n : Nat) (l : List SearchResult),
    ((assignRanks n l).map (fun i => i.id)).Nodup := by
  intro n l
  induction l generalizing n with
  | nil => simp [assignRanks]
  | cons r rs ih =>
      simp only [assignRanks, List.map_cons, List.nodup_cons]
      refine ⟨?_, ih (n + 1)⟩
      intro hmem
      simp only [List.mem_map] at hmem
      obtain ⟨x, hx, hid⟩ := hmem
      obtain ⟨_, _, j, hj, hidx⟩ := mem_assignRanks (n + 1) rs x hx
      rw [hidx] at hid
      have := itemId_inj j n hid
      omega

theorem assignRanks_map_payload : ∀ (n : Nat) (l : List SearchResult),
    (assignRanks n l).map payload = l := by
  intro n l
  induction l generalizing n with
  | nil => simp [assignRanks]
  | cons r rs ih => simp [assignRanks, payload, ih (n + 1)]

/-- C5: every sequence produced by retrieve has strictly increasing rank
consistent with descending score, per-batch-unique identifiers, and ties
in score resolved by stable first-seen input order (the equal-score items
of the output form, in order, an initial segment of the equal-score items
of the input).  Determinism for identical inputs is inherent to the
functional model. -/
theorem retrieve_invariants (results : List SearchResult) (topK : Nat) :
    (retrieve results topK).Pairwise (fun a b => a.rank < b.rank ∧ b.score ≤ a.score) ∧
    ((retrieve results topK).map (fun i => i.id)).Nodup ∧
    (∀ c : Int, ∃ m,
      ((retrieve results topK).map payload).filter (fun r => decide (r.score = c)) =
        (results.filter (fun r => decide (r.score = c))).take m) := by
  refine ⟨?_, ?_, ?_⟩
  · exact assignRanks_pairwise 0 _
      (List.Pairwise.sublist (List.take_sublist _ _) (sortDesc_sorted results))
  · exact assignRanks_ids_nodup 0 _
  · intro c
    rw [retrieve, assignRanks_map_payload]
    obtain ⟨m, hm⟩ :=
      filter_take_eq_take_filter (fun r => decide (r.score = c)) (sortDesc results) topK
    rw [hm, sortDesc_filter]
    exact ⟨m, rfl⟩

/-- Modelled from the spec: the CitationReference value object of section
3, emitted inline in the generated answer; the emitting Chat Orchestrator
is not in the repository sources. -/
structure CitationReference where
  sourceDocument : String
  displayIndex : Nat
deriving DecidableEq, Repr

/-- One-based position of the first occurrence of a document in a seen
list; one past the length when absent. -/
def posIn (doc : String) : List String → Nat
  | [] => 1
  | s :: rest => if s = doc then 1 else posIn doc rest + 1

/-- Appends a document to the seen list unless it is already present. -/
def updateSeen (seen : List String) (doc : String) : List String :=
  if doc ∈ seen then seen else seen ++ [doc]

/-- Folds a document stream into the seen list, keeping first
occurrences in stream order. -/
def firstSeenFrom : List String → List String → List String
  | seen, [] => seen
  | seen, d :: ds => firstSeenFrom (updateSeen seen d) ds

/-- Modelled from the spec: the display-index assignment of section 3,
mapping each cited document of one answer to a CitationReference whose
displayIndex is determined by first-seen order; the assigning Chat
Orchestrator is not in the repository sources. -/
def assignFrom (seen : List String) : List String → List CitationReference
  | [] => []
  | d :: ds => ⟨d, posIn d seen⟩ :: assignFrom (updateSeen seen d) ds

/-- Display-index assignment for the cited documents of one answer,
starting from an empty seen list. -/
def assignDisplayIndexes (docs : List String) : List CitationReference :=
  assignFrom [] docs

theorem posIn_not_mem (doc : String) : ∀ s, doc ∉ s → posIn doc s = s.length + 1 := by
  intro s
  induction s with
  | nil => intro _; rfl
  | cons x rest ih =>
      intro h
      have hx : ¬ x = doc := fun e => h (by simp [e])
      have hr : doc ∉ rest := fun e => h (by simp [e])
      simp [posIn, hx, ih hr]

theorem posIn_append_of_mem (doc : String) :
    ∀ s t, doc ∈ s → posIn doc (s ++ t) = posIn doc s := by
  intro s t
  induction s with
  | nil => intro h; simp at h
  | cons x rest ih =>
      intro h
      by_cases hx : x = doc
      · simp [posIn, hx]
      · have hr : doc ∈ rest := by
          rcases List.mem_cons.mp h with he | hr
          · exact absurd he.symm hx
          · exact hr
        simp [posIn, hx, ih hr]

theorem mem_updateSeen (x doc : String) (s : List String) :
    x ∈ updateSeen s doc ↔ x ∈ s ∨ x = doc := by
  by_cases h : doc ∈ s
  · simp only [updateSeen, if_pos h]
    constructor
    · exact fun hx => Or.inl hx
    · rintro (hx | rfl)
      · exact hx
      · exact h
  · simp [updateSeen, if_neg h]

theorem posIn_append_not_mem (doc : String) :
    ∀ s t, doc ∉ s → posIn doc (s ++ t) = s.length + posIn doc t := by
  intro s t
  induction s with
  | nil => intro _; simp [posIn]
  | cons x rest ih =>
      intro h
      have hx : ¬ x = doc := fun e => h (by simp [e])
      have hr : doc ∉ rest := fun e => h (by simp [e])
      simp only [List.cons_append, posIn, if_neg hx, List.length_cons, List.append_eq, ih hr]
      omega

theorem posIn_updateSeen_self (doc : String) (s : List String) :
    posIn doc (updateSeen s doc) = posIn doc s := by
  by_cases h : doc ∈ s
  · simp [updateSeen, h]
  · simp only [updateSeen, if_neg h]
    rw [posIn_append_not_mem doc s [doc] h, posIn_not_mem doc s h]
    simp [posIn]

theorem posIn_firstSeenFrom_of_mem (doc : String) :
    ∀ (l s : List String), doc ∈ s → posIn doc (firstSeenFrom s l) = posIn doc s := by
  intro l
  induction l with
  | nil => intro s _; rfl
  | cons d ds ih =>
      intro s hs
      have hmem : doc ∈ updateSeen s d := (mem_updateSeen doc d s).mpr (Or.inl hs)
      have step : posIn doc (updateSeen s d) = posIn doc s := by
        by_cases hd : d ∈ s
        · simp [updateSeen, hd]
        · simp only [updateSeen, if_neg hd]
          exact posIn_append_of_mem doc s [d] hs
      calc posIn doc (firstSeenFrom (updateSeen s d) ds)
        = posIn doc (updateSeen s d) := ih (updateSeen s d) hmem
        _ = posIn doc s := step

theorem mem_firstSeenFrom (x : String) :
    ∀ (l s : List String), x ∈ firstSeenFrom s l ↔ x ∈ s ∨ x ∈ l := by
  intro l
  induction l with
  | nil => intro s; simp [firstSeenFrom]
  | cons d ds ih =>
      intro s
      rw [show firstSeenFrom s (d :: ds) = firstSeenFrom (updateSeen s d) ds from rfl,
        ih (updateSeen s d), mem_updateSeen]
      simp [List.mem_cons]
      tauto

theorem length_le_firstSeenFrom :
    ∀ (l s : List String), s.length ≤ (firstSeenFrom s l).length := by
  intro l
  induction l with
  | nil => intro s; exact Nat.le_refl _
  | cons d ds ih =>
      intro s
      have h1 : s.length ≤ (updateSeen s d).length := by
        by_cases h : d ∈ s
        · simp [updateSeen, h]
        · simp [updateSeen, h]
      exact Nat.le_trans h1 (ih (updateSeen s d))

theorem length_updateSeen_not_mem (s : List String) (d : String) (h : d ∉ s) :
    (updateSeen s d).length = s.length + 1 := by
  simp [updateSeen, h]

theorem firstSeenFrom_append :
    ∀ (l t s : List String), firstSeenFrom s (l ++ t) = firstSeenFrom (firstSeenFrom s l) t := by
  intro l
  induction l with
  | nil => intro t s; rfl
  | cons d ds ih => intro t s; exact ih t (updateSeen s d)

theorem assignFrom_getElem? :
    ∀ (docs seen : List String) (k : Nat),
      (assignFrom seen docs)[k]? = (docs[k]?).map
        (fun d => (⟨d, posIn d (firstSeenFrom seen (docs.take k))⟩ : CitationReference)) := by
  intro docs
  induction docs with
  | nil => intro seen k; simp [assignFrom]
  | cons d ds ih =>
      intro seen k
      cases k with
      | zero => simp [assignFrom, firstSeenFrom]
      | succ k =>
          simp only [assignFrom, List.getElem?_cons_succ, List.take_succ_cons]
          rw [ih (updateSeen seen d) k]
          rfl

theorem assignFrom_map_source :
    ∀ (docs seen : List String),
      (assignFrom seen docs).map (fun c => c.sourceDocument) = docs := by
  intro docs
  induction docs with
  | nil => intro seen; rfl
  | cons d ds ih => intro seen; simp [assignFrom, ih (updateSeen seen d)]

theorem firstSeenFrom_take_succ (docs : List String) (s : List String) (k : Nat) (d : String)
    (hk : docs[k]? = some d) :
    firstSeenFrom s (docs.take (k + 1)) = updateSeen (firstSeenFrom s (docs.take k)) d := by
  rw [List.take_succ, hk]
  simp only [Option.toList_some]
  rw [firstSeenFrom_append]
  rfl

theorem take_split (docs : List String) (i j : Nat) (h : i ≤ j) :
    docs.take j = docs.take i ++ ((docs.take j).drop i) := by
  have h1 := List.take_append_drop i (docs.take j)
  rw [List.take_take, Nat.min_eq_left h] at h1
  exact h1.symm

theorem posIn_firstSeen_stable (docs : List String) (d : String) (i j : Nat) (hij : i < j)
    (hd : docs[i]? = some d) :
    posIn d (firstSeenFrom [] (docs.take j)) = posIn d (firstSeenFrom [] (docs.take i)) := by
  have hstep : firstSeenFrom [] (docs.take (i + 1)) =
      updateSeen (firstSeenFrom [] (docs.take i)) d :=
    firstSeenFrom_take_succ docs [] i d hd
  have hmem : d ∈ firstSeenFrom [] (docs.take (i + 1)) := by
    rw [hstep]
    exact (mem_updateSeen d d _).mpr (Or.inr rfl)
  rw [take_split docs (i + 1) j (by omega), firstSeenFrom_append,
    posIn_firstSeenFrom_of_mem d _ _ hmem, hstep, posIn_updateSeen_self]

/-- C6: within one answer, display indexes are assigned in first-seen
order of sourceDocument: the emitted references carry exactly the cited
documents in order, the first citation receives displayIndex 1, a first
occurrence at position k receives one plus the number of distinct
documents cited before it (hence indexes of first occurrences strictly
increase in stream order, independent of retrieval rank), and every
repeated citation of a document reuses the displayIndex of its first
occurrence. -/
theorem displayIndex_first_seen (docs : List String) :
    ((assignDisplayIndexes docs).map (fun c => c.sourceDocument) = docs) ∧
    (∀ d, docs[0]? = some d → (assignDisplayIndexes docs)[0]? = some ⟨d, 1⟩) ∧
    (∀ k d, docs[k]? = some d → d ∉ docs.take k →
      (assignDisplayIndexes docs)[k]? =
        some ⟨d, (firstSeenFrom [] (docs.take k)).length + 1⟩) ∧
    (∀ (i j : Nat) (di dj : String) (ri rj : CitationReference),
      i < j → docs[i]? = some di → di ∉ docs.take i →
      docs[j]? = some dj → dj ∉ docs.take j →
      (assignDisplayIndexes docs)[i]? = some ri →
      (assignDisplayIndexes docs)[j]? = some rj →
      ri.displayIndex < rj.displayIndex) ∧
    (∀ (i j : Nat) (d : String) (ri rj : CitationReference),
      i ≤ j → docs[i]? = some d → docs[j]? = some d →
      (assignDisplayIndexes docs)[i]? = some ri →
      (assignDisplayIndexes docs)[j]? = some rj →
      ri.displayIndex = rj.displayIndex) := by
  have master : ∀ k, (assignDisplayIndexes docs)[k]? = (docs[k]?).map
      (fun d => (⟨d, posIn d (firstSeenFrom [] (docs.take k))⟩ : CitationReference)) :=
    fun k => assignFrom_getElem? docs [] k
  have closed : ∀ k d, docs[k]? = some d → d ∉ docs.take k →
      (assignDisplayIndexes docs)[k]? =
        some ⟨d, (firstSeenFrom [] (docs.take k)).length + 1⟩ := by
    intro k d hk hnot
    have hnotF : d ∉ firstSeenFrom [] (docs.take k) := by
      intro hmem
      rcases (mem_firstSeenFrom d (docs.take k) []).mp hmem with h | h
      · simp at h
      · exact hnot h
    rw [master k, hk]
    show some (⟨d, posIn d (firstSeenFrom [] (docs.take k))⟩ : CitationReference) =
      some ⟨d, (firstSeenFrom [] (docs.take k)).length + 1⟩
    rw [posIn_not_mem d _ hnotF]
  refine ⟨assignFrom_map_source docs [], ?_, closed, ?_, ?_⟩
  · intro d h0
    rw [master 0, h0]
    rfl
  · intro i j di dj ri rj hij hdi hnoti hdj hnotj hri hrj
    have hi := (closed i di hdi hnoti).symm.trans hri
    have hj := (closed j dj hdj hnotj).symm.trans hrj
    have hri2 : ri = ⟨di, (firstSeenFrom [] (docs.take i)).length + 1⟩ :=
      (Option.some.inj hi).symm
    have hrj2 : rj = ⟨dj, (firstSeenFrom [] (docs.take j)).length + 1⟩ :=
      (Option.some.inj hj).symm
    have hnotFi : di ∉ firstSeenFrom [] (docs.take i) := by
      intro hmem
      rcases (mem_firstSeenFrom di (docs.take i) []).mp hmem with h | h
      · simp at h
      · exact hnoti h
    have hstep : firstSeenFrom [] (docs.take (i + 1)) =
        updateSeen (firstSeenFrom [] (docs.take i)) di :=
      firstSeenFrom_take_succ docs [] i di hdi
    have hlen1 : (firstSeenFrom [] (docs.take (i + 1))).length =
        (firstSeenFrom [] (docs.take i)).length + 1 := by
      rw [hstep]
      exact length_updateSeen_not_mem _ di hnotFi
    have hlen2 : (firstSeenFrom [] (docs.take (i + 1))).length ≤
        (firstSeenFrom [] (docs.take j)).length := by
      rw [take_split docs (i + 1) j (by omega), firstSeenFrom_append]
      exact length_le_firstSeenFrom _ _
    rw [hri2, hrj2]
    show (firstSeenFrom [] (docs.take i)).length + 1 <
      (firstSeenFrom [] (docs.take j)).length + 1
    omega
  · intro i j d ri rj hij hdi hdj hri hrj
    have hi := (master i).symm.trans hri
    have hj := (master j).symm.trans hrj
    rw [hdi] at hi
    rw [hdj] at hj
    have hi2 : some (⟨d, posIn d (firstSeenFrom [] (docs.take i))⟩ : CitationReference) =
        some ri := hi
    have hj2 : some (⟨d, posIn d (firstSeenFrom [] (docs.take j))⟩ : CitationReference) =
        some rj := hj
    have hri2 : ri = ⟨d, posIn d (firstSeenFrom [] (docs.take i))⟩ := (Option.some.inj hi2).symm
    have hrj2 : rj = ⟨d, posIn d (firstSeenFrom [] (docs.take j))⟩ := (Option.some.inj hj2).symm
    rcases Nat.eq_or_lt_of_le hij with rfl | hlt
    · rw [hri2, hrj2]
    · rw [hri2, hrj2]
      show posIn d (firstSeenFrom [] (docs.take i)) = posIn d (firstSeenFrom [] (docs.take j))
      exact (posIn_firstSeen_stable docs d i j hlt hdi).symm

/-- Witness for C6 at a concrete answer citing policy.pdf, then
other.pdf, then policy.pdf again: the first citation receives index 1 and
the repeat reuses the index of the first occurrence. -/
theorem displayIndex_first_seen_witness :
    (assignDisplayIndexes ["policy.pdf", "other.pdf", "policy.pdf"])[0]? =
      some ⟨"policy.pdf", 1⟩ ∧
    (⟨"policy.pdf", 1⟩ : CitationReference).displayIndex =
      (⟨"policy.pdf", 1⟩ : CitationReference).displayIndex :=
  ⟨(displayIndex_first_seen ["policy.pdf", "other.pdf", "policy.pdf"]).2.1
      "policy.pdf" (by decide),
   (displayIndex_first_seen ["policy.pdf", "other.pdf", "policy.pdf"]).2.2.2.2
      0 2 "policy.pdf" ⟨"policy.pdf", 1⟩ ⟨"policy.pdf", 1⟩ (by omega)
      (by decide) (by decide) (by decide) (by decide)⟩

/-- Modelled from the spec: one fragment of the raw output of the
answer-generation backend, either literal text or a citation marker
naming a source document (section 4.5, Generating; the orchestrator code
is not in the repository sources). -/
inductive RawFragment where
  | text : String → RawFragment
  | marker : String → RawFragment
deriving DecidableEq, Repr

/-- Modelled from the spec: one fragment of the stream emitted to the
caller, either text or a rewritten CitationReference (section 4.5). -/
inductive AnswerFragment where
  | text : String → AnswerFragment
  | citation : CitationReference → AnswerFragment
deriving DecidableEq, Repr

/-- Modelled from the spec: the citation-marker scan of the Generating
state (section 4.5), which is not in the repository sources.  Markers
whose document is present in the bundle are rewritten into
CitationReference values with first-seen display indexes; markers whose
document is absent from the bundle are dropped. -/
def rewriteFrom (bd : List String) (seen : List String) :
    List RawFragment → List AnswerFragment
  | [] => []
  | RawFragment.text s :: rest => AnswerFragment.text s :: rewriteFrom bd seen rest
  | RawFragment.marker d :: rest =>
      if d ∈ bd then
        AnswerFragment.citation ⟨d, posIn d seen⟩ :: rewriteFrom bd (updateSeen seen d) rest
      else rewriteFrom bd seen rest

/-- Citation-marker rewriting of a whole generated stream against the
documents of the active context bundle. -/
def rewriteStream (bd : List String) (raw : List RawFragment) : List AnswerFragment :=
  rewriteFrom bd [] raw

/-- Source documents of the citation fragments of an emitted stream, in
stream order. -/
def citationDocs : List AnswerFragment → List String
  | [] => []
  | AnswerFragment.text _ :: rest => citationDocs rest
  | AnswerFragment.citation c :: rest => c.sourceDocument :: citationDocs rest

/-- Documents named by the citation markers of a raw generated stream, in
stream order. -/
def markerDocs : List RawFragment → List String
  | [] => []
  | RawFragment.text _ :: rest => markerDocs rest
  | RawFragment.marker d :: rest => d :: markerDocs rest

/-- Documents of a context bundle, in item order. -/
def bundleDocs (bundle : ContextBundle) : List String :=
  bundle.items.map (fun i => i.sourceDocument)

/-- Modelled from the spec: the terminal outcome of one orchestration,
either Rejected with an error kind or Completed with the emitted stream
(section 4.5; the orchestrator code is not in the repository sources). -/
inductive ChatPhase where
  | rejected : ErrorKind → ChatPhase
  | completed : List AnswerFragment → ChatPhase
deriving DecidableEq, Repr

/-- Modelled from the spec: the observable outcome of one call to the
Chat Orchestrator, together with the number of calls it made to the
Grounding Retriever. -/
structure ChatOutcome where
  phase : ChatPhase
  retrieverCalls : Nat
deriving DecidableEq, Repr

/-- Modelled from the spec: the Chat Orchestrator operation
`answer(indexName, query, history)` of section 4.5, which is not in the
repository sources, with its external collaborators supplied as data: the
current index listing, the backend results the retriever would obtain,
and the raw stream the answer-generation backend would emit.  Validation
rejects an unlisted index or an empty query with InvalidArgument before
any retriever call; otherwise the pipeline retrieves, assembles,
generates and rewrites citation markers against the bundle. -/
def answer (listed : List String) (results : List SearchResult) (gen : List RawFragment)
    (topK budget : Nat) (indexName query : String) (history : List String) : ChatOutcome :=
  if indexName ∈ listed ∧ query ≠ "" then
    { phase := ChatPhase.completed
        (rewriteStream (bundleDocs (assemble (retrieve results topK) budget)) gen),
      retrieverCalls := 1 }
  else { phase := ChatPhase.rejected ErrorKind.InvalidArgument, retrieverCalls := 0 }

theorem citationDocs_rewriteFrom (bd : List String) :
    ∀ (raw : List RawFragment) (seen : List String),
      citationDocs (rewriteFrom bd seen raw) =
        (markerDocs raw).filter (fun d => decide (d ∈ bd)) := by
  intro raw
  induction raw with
  | nil => intro seen; rfl
  | cons f rest ih =>
      intro seen
      cases f with
      | text s => simp [rewriteFrom, markerDocs, citationDocs, ih seen]
      | marker d =>
          by_cases hd : d ∈ bd
          · simp [rewriteFrom, markerDocs, citationDocs, hd, List.filter_cons,
              ih (updateSeen seen d)]
          · simp [rewriteFrom, markerDocs, citationDocs, hd, List.filter_cons, ih seen]

theorem citation_mem_rewriteFrom (bd : List String) :
    ∀ (raw : List RawFragment) (seen : List String) (ref : CitationReference),
      AnswerFragment.citation ref ∈ rewriteFrom bd seen raw → ref.sourceDocument ∈ bd := by
  intro raw
  induction raw with
  | nil => intro seen ref h; simp [rewriteFrom] at h
  | cons f rest ih =>
      intro seen ref h
      cases f with
      | text s =>
          simp only [rewriteFrom, List.mem_cons] at h
          rcases h with h | h
          · simp at h
          · exact ih seen ref h
      | marker d =>
          by_cases hd : d ∈ bd
          · simp only [rewriteFrom, if_pos hd, List.mem_cons] at h
            rcases h with h | h
            · injection h with h2
              rw [h2]
              exact hd
            · exact ih (updateSeen seen d) ref h
          · simp only [rewriteFrom, if_neg hd] at h
            exact ih seen ref h

/-- C2: every stream the Chat Orchestrator completes contains, as its
citation fragments, exactly the generated markers whose document is
present in the active context bundle, in stream order; in particular a
marker whose document is absent from the bundle is never emitted, and
every emitted CitationReference refers to a bundle document. -/
theorem chat_citations_grounded (listed : List String) (results : List SearchResult)
    (gen : List RawFragment) (topK budget : Nat) (indexName query : String)
    (history : List String) (stream : List AnswerFragment)
    (h : (answer listed results gen topK budget indexName query history).phase =
      ChatPhase.completed stream) :
    citationDocs stream = (markerDocs gen).filter
      (fun d => decide (d ∈ bundleDocs (assemble (retrieve results topK) budget))) ∧
    ∀ ref, AnswerFragment.citation ref ∈ stream →
      ref.sourceDocument ∈ bundleDocs (assemble (retrieve results topK) budget) := by
  by_cases hc : indexName ∈ listed ∧ query ≠ ""
  · simp only [answer, if_pos hc] at h
    injection h with h2
    subst h2
    exact ⟨citationDocs_rewriteFrom _ gen [],
      fun ref hr => citation_mem_rewriteFrom _ gen [] ref hr⟩
  · simp only [answer, if_neg hc] at h
    simp at h

/-- Witness for C2 at a concrete run: the retriever returns two passages
of policy.pdf, the generator cites policy.pdf, hallucinates ghost.pdf and
cites policy.pdf again; the completed stream keeps exactly the grounded
citations. -/
theorem chat_citations_grounded_witness :
    citationDocs [AnswerFragment.citation ⟨"policy.pdf", 1⟩, AnswerFragment.text "x",
        AnswerFragment.citation ⟨"policy.pdf", 1⟩] =
      (markerDocs [RawFragment.marker "policy.pdf", RawFragment.text "x",
          RawFragment.marker "ghost.pdf", RawFragment.marker "policy.pdf"]).filter
        (fun d => decide (d ∈ bundleDocs (assemble
          (retrieve [⟨"policy.pdf", GroundingContent.text "aa", 9⟩,
            ⟨"policy.pdf", GroundingContent.text "bb", 7⟩] 5) 100))) ∧
    ∀ ref, AnswerFragment.citation ref ∈
        [AnswerFragment.citation ⟨"policy.pdf", 1⟩, AnswerFragment.text "x",
          AnswerFragment.citation ⟨"policy.pdf", 1⟩] →
      ref.sourceDocument ∈ bundleDocs (assemble
        (retrieve [⟨"policy.pdf", GroundingContent.text "aa", 9⟩,
          ⟨"policy.pdf", GroundingContent.text "bb", 7⟩] 5) 100) :=
  chat_citations_grounded ["docs-2024"]
    [⟨"policy.pdf", GroundingContent.text "aa", 9⟩,
     ⟨"policy.pdf", GroundingContent.text "bb", 7⟩]
    [RawFragment.marker "policy.pdf", RawFragment.text "x",
     RawFragment.marker "ghost.pdf", RawFragment.marker "policy.pdf"]
    5 100 "docs-2024" "q" []
    [AnswerFragment.citation ⟨"policy.pdf", 1⟩, AnswerFragment.text "x",
     AnswerFragment.citation ⟨"policy.pdf", 1⟩]
    (by decide)

/-- C7: a call to answer whose indexName is not a currently listed index
terminates in the Rejected state with InvalidArgument at validation and
makes zero calls to the Grounding Retriever, so it never reaches the
answer-generation step. -/
theorem answer_unlisted_rejected (listed : List String) (results : List SearchResult)
    (gen : List RawFragment) (topK budget : Nat) (indexName query : String)
    (history : List String) (h : indexName ∉ listed) :
    answer listed results gen topK budget indexName query history =
      { phase := ChatPhase.rejected ErrorKind.InvalidArgument, retrieverCalls := 0 } := by
  have hc : ¬ (indexName ∈ listed ∧ query ≠ "") := fun hh => h hh.1
  simp [answer, hc]

/-- Witness for C7 at a concrete call on a missing index. -/
theorem answer_unlisted_rejected_witness :
    answer ["docs-2024"] [] [] 5 100 "missing-index" "q" [] =
      { phase := ChatPhase.rejected ErrorKind.InvalidArgument, retrieverCalls := 0 } :=
  answer_unlisted_rejected ["docs-2024"] [] [] 5 100 "missing-index" "q" [] (by decide)

/-- Modelled from the spec: the process-wide index-listing cache of
sections 4.5 and 5, holding the last fetched listing and its refresh
time; the caching code is not in the repository sources. -/
structure IndexCache where
  value : Option (List String)
  lastRefreshed : Nat
deriving DecidableEq, Repr

/-- Modelled from the spec: the Index Registry listing operation seen
through the orchestrator's cache (sections 4.1, 4.5 and 5), which is not
in the repository sources.  Within one refresh interval of the last
refresh the cached listing is returned without touching the catalog;
otherwise one catalog call refreshes the cache.  Returns the listing, the
new cache state and the number of underlying catalog calls made. -/
def listIndexes (interval : Nat) (catalog : List String) (cache : IndexCache) (now : Nat) :
    List String × IndexCache × Nat :=
  match cache.value with
  | some v =>
      if now < cache.lastRefreshed + interval then (v, cache, 0)
      else (catalog, ⟨some catalog, now⟩, 1)
  | none => (catalog, ⟨some catalog, now⟩, 1)

/-- C8: two listIndexes invocations falling within one refresh interval
of the cache make at most one underlying catalog call in total; the
second invocation observes the cached value of the first rather than
triggering a duplicate catalog call. -/
theorem listIndexes_at_most_one_catalog_call (interval : Nat) (catalog : List String)
    (cache : IndexCache) (t1 t2 : Nat)
    (h : t2 < (listIndexes interval catalog cache t1).2.1.lastRefreshed + interval) :
    (listIndexes interval catalog (listIndexes interval catalog cache t1).2.1 t2).2.2 = 0 ∧
    (listIndexes interval catalog (listIndexes interval catalog cache t1).2.1 t2).1 =
      (listIndexes interval catalog cache t1).1 ∧
    (listIndexes interval catalog cache t1).2.2 +
      (listIndexes interval catalog (listIndexes interval catalog cache t1).2.1 t2).2.2 ≤ 1 := by
  rcases cache with ⟨val, last⟩
  cases val with
  | none =>
      have e1 : listIndexes interval catalog ⟨none, last⟩ t1 =
          (catalog, ⟨some catalog, t1⟩, 1) := rfl
      rw [e1] at h ⊢
      have h2 : t2 < t1 + interval := h
      have e2 : listIndexes interval catalog ⟨some catalog, t1⟩ t2 =
          (catalog, ⟨some catalog, t1⟩, 0) := by
        simp [listIndexes, h2]
      rw [e2]
      exact ⟨rfl, rfl, Nat.le_refl 1⟩
  | some v =>
      by_cases hfresh : t1 < last + interval
      · have e1 : listIndexes interval catalog ⟨some v, last⟩ t1 = (v, ⟨some v, last⟩, 0) := by
          simp [listIndexes, hfresh]
        rw [e1] at h ⊢
        have h2 : t2 < last + interval := h
        have e2 : listIndexes interval catalog ⟨some v, last⟩ t2 = (v, ⟨some v, last⟩, 0) := by
          simp [listIndexes, h2]
        rw [e2]
        exact ⟨rfl, rfl, Nat.zero_le 1⟩
      · have e1 : listIndexes interval catalog ⟨some v, last⟩ t1 =
            (catalog, ⟨some catalog, t1⟩, 1) := by
          simp [listIndexes, hfresh]
        rw [e1] at h ⊢
        have h2 : t2 < t1 + interval := h
        have e2 : listIndexes interval catalog ⟨some catalog, t1⟩ t2 =
            (catalog, ⟨some catalog, t1⟩, 0) := by
          simp [listIndexes, h2]
        rw [e2]
        exact ⟨rfl, rfl, Nat.le_refl 1⟩

/-- Witness for C8 at a concrete pair of calls: an empty cache at time 0
causes one refresh; a second call at time 5 within the interval of 10
observes the cached listing with zero further catalog calls. -/
theorem listIndexes_at_most_one_catalog_call_witness :
    (listIndexes 10 ["docs-2024"]
        (listIndexes 10 ["docs-2024"] ⟨none, 0⟩ 0).2.1 5).2.2 = 0 ∧
    (listIndexes 10 ["docs-2024"] (listIndexes 10 ["docs-2024"] ⟨none, 0⟩ 0).2.1 5).1 =
      (listIndexes 10 ["docs-2024"] ⟨none, 0⟩ 0).1 ∧
    (listIndexes 10 ["docs-2024"] ⟨none, 0⟩ 0).2.2 +
      (listIndexes 10 ["docs-2024"]
        (listIndexes 10 ["docs-2024"] ⟨none, 0⟩ 0).2.1 5).2.2 ≤ 1 :=
  listIndexes_at_most_one_catalog_call 10 ["docs-2024"] ⟨none, 0⟩ 0 5 (by decide)

/-- Shape of one operation declared in the OpenAPI document shipped with
the repository. -/
structure OpenApiOperation where
  path : String
  method : String
  operationId : String
  requestBodyRequired : Bool
  requiredBodyFields : List String
  declaredResponseCodes : List Nat
deriving DecidableEq, Repr

/-- Embedded from the repository's OpenAPI document: the declaration of
POST /get_citation_doc (operationId getCitationDocument).  The document
declares a required body with the required field fileName and a single
response, 200 with a string body. -/
def getCitationDocumentOperation : OpenApiOperation :=
  { path := "/get_citation_doc",
    method := "post",
    operationId := "getCitationDocument",
    requestBodyRequired := true,
    requiredBodyFields := ["fileName"],
    declaredResponseCodes := [200] }

/-- Modelled from the spec: the HTTP handler behind POST
/get_citation_doc (section 6; the backend handler code is not in the
repository sources).  It maps the Citation Resolver outcome to a status
code and optional signed URL body: 200 on success, 400 on
InvalidArgument, 404 on NotFound. -/
def getCitationDocEndpoint (cfg : ResolverConfig) (storage : List String) (now : Nat)
    (fileName : String) : Nat × Option String :=
  match resolve cfg storage now fileName with
  | Except.ok link => (200, some link.url)
  | Except.error ErrorKind.InvalidArgument => (400, none)
  | Except.error ErrorKind.NotFound => (404, none)
  | Except.error _ => (500, none)

/-- Counterexample for C9: the repository's OpenAPI contract for the
endpoint does not declare the 400 and 404 response codes, so 200, 400 and
404 are not exactly the response codes of the declared contract. -/
theorem getCitationDoc_contract_codes_counterexample :
    ¬ (∀ c, c ∈ [200, 400, 404] →
      c ∈ getCitationDocumentOperation.declaredResponseCodes) := by decide

/-- C9 (amended): given a body carrying fileName, the endpoint handler
(modelled from the spec) responds 200 with a signed URL on success, 400
when the Citation Resolver fails with InvalidArgument and 404 when it
fails with NotFound, and these three are its only status codes; the
repository's OpenAPI contract, however, declares only the 200 response. -/
theorem getCitationDoc_endpoint_contract (cfg : ResolverConfig) (storage : List String)
    (now : Nat) (fileName : String) :
    (∀ link, resolve cfg storage now fileName = Except.ok link →
      getCitationDocEndpoint cfg storage now fileName = (200, some link.url)) ∧
    (resolve cfg storage now fileName = Except.error ErrorKind.InvalidArgument →
      getCitationDocEndpoint cfg storage now fileName = (400, none)) ∧
    (resolve cfg storage now fileName = Except.error ErrorKind.NotFound →
      getCitationDocEndpoint cfg storage now fileName = (404, none)) ∧
    ((getCitationDocEndpoint cfg storage now fileName).1 = 200 ∨
      (getCitationDocEndpoint cfg storage now fileName).1 = 400 ∨
      (getCitationDocEndpoint cfg storage now fileName).1 = 404) ∧
    getCitationDocumentOperation.declaredResponseCodes = [200] := by
  refine ⟨?_, ?_, ?_, ?_, rfl⟩
  · intro link hok
    simp [getCitationDocEndpoint, hok]
  · intro herr
    simp [getCitationDocEndpoint, herr]
  · intro herr
    simp [getCitationDocEndpoint, herr]
  · by_cases hv : validFileName fileName
    · by_cases hc : fileName ∈ storage
      · have hok : resolve cfg storage now fileName = Except.ok
            ⟨"https://storage.example/" ++ fileName, now + cfg.validityWindow, true⟩ := by
          simp [resolve, hv, hc]
        left
        simp [getCitationDocEndpoint, hok]
      · have herr : resolve cfg storage now fileName = Except.error ErrorKind.NotFound := by
          simp [resolve, hv, hc]
        right; right
        simp [getCitationDocEndpoint, herr]
    · have herr : resolve cfg storage now fileName = Except.error ErrorKind.InvalidArgument := by
        simp [resolve, hv]
      right; left
      simp [getCitationDocEndpoint, herr]

/-- Witness for the amended C9 at concrete requests: a traversal name
yields 400, an absent document yields 404, an existing document yields
200 with its signed URL. -/
theorem getCitationDoc_endpoint_contract_witness :
    getCitationDocEndpoint ⟨300, 900⟩ ["report.pdf"] 0 "../secret" = (400, none) ∧
    getCitationDocEndpoint ⟨300, 900⟩ ["report.pdf"] 0 "missing.pdf" = (404, none) ∧
    getCitationDocEndpoint ⟨300, 900⟩ ["report.pdf"] 0 "report.pdf" =
      (200, some "https://storage.example/report.pdf") :=
  ⟨(getCitationDoc_endpoint_contract ⟨300, 900⟩ ["report.pdf"] 0 "../secret").2.1 rfl,
   (getCitationDoc_endpoint_contract ⟨300, 900⟩ ["report.pdf"] 0 "missing.pdf").2.2.1 rfl,
   (getCitationDoc_endpoint_contract ⟨300, 900⟩ ["report.pdf"] 0 "report.pdf").1
     ⟨"https://storage.example/report.pdf", 300, true⟩ rfl⟩

/-- Element returned by the GPTBuilder React component: either the
fallback text div or an iframe with a source URL and a title. -/
inductive GPTBuilderElement where
  | fallbackDiv : String → GPTBuilderElement
  | iframeEmbed : String → String → GPTBuilderElement
deriving DecidableEq, Repr

/-- Embedded from src/frontend/src/components/GPTBuilder.tsx: the
component reads VITE_GPT_BUILDER_URL (undefined or a string, with the
empty string falsy exactly as the source's if-not-url guard treats it)
and returns the fallback div when the value is falsy, otherwise an
iframe whose src is exactly the configured string and whose title is
GPT Builder. -/
def GPTBuilder (viteGptBuilderUrl : Option String) : GPTBuilderElement :=
  match viteGptBuilderUrl with
  | none => GPTBuilderElement.fallbackDiv "No GPT Builder URL configured."
  | some url =>
      if url = "" then GPTBuilderElement.fallbackDiv "No GPT Builder URL configured."
      else GPTBuilderElement.iframeEmbed url "GPT Builder"

/-- C10: GPTBuilder is total on its configuration: an undefined or empty
VITE_GPT_BUILDER_URL yields the fallback element and never an iframe,
and a non-empty value yields an iframe whose src equals exactly that
string. -/
theorem gptBuilder_total_on_config (env : Option String) :
    ((env = none ∨ env = some "") →
      GPTBuilder env = GPTBuilderElement.fallbackDiv "No GPT Builder URL configured." ∧
      ∀ src title, GPTBuilder env ≠ GPTBuilderElement.iframeEmbed src title) ∧
    (∀ s, env = some s → s ≠ "" →
      GPTBuilder env = GPTBuilderElement.iframeEmbed s "GPT Builder") := by
  constructor
  · intro henv
    have hfb : GPTBuilder env = GPTBuilderElement.fallbackDiv "No GPT Builder URL configured." := by
      rcases henv with rfl | rfl
      · rfl
      · decide
    refine ⟨hfb, ?_⟩
    intro src title hcontra
    rw [hfb] at hcontra
    exact GPTBuilderElement.noConfusion hcontra
  · intro s hs hne
    subst hs
    simp [GPTBuilder, hne]

/-- Witness for C10 at the three configuration shapes: undefined, empty
and a concrete URL. -/
theorem gptBuilder_total_on_config_witness :
    GPTBuilder none = GPTBuilderElement.fallbackDiv "No GPT Builder URL configured." ∧
    GPTBuilder (some "") = GPTBuilderElement.fallbackDiv "No GPT Builder URL configured." ∧
    GPTBuilder (some "https://builder.example") =
      GPTBuilderElement.iframeEmbed "https://builder.example" "GPT Builder" :=
  ⟨((gptBuilder_total_on_config none).1 (Or.inl rfl)).1,
   ((gptBuilder_total_on_config (some "")).1 (Or.inr rfl)).1,
   (gptBuilder_total_on_config (some "https://builder.example")).2
     "https://builder.example" rfl (by decide)⟩
